import Mathlib

/-!
Verification of the shortest-path program (`src/main.c`): a directed weighted
graph loaded from comma-separated text, Dijkstra's algorithm over a
decrease-key min-heap, and a dot-style path renderer.

The graph and heap implementations live in `graph.c` / `heap.c`, which are not
part of the sources at hand; their operations are modelled from the project
specification (§3, §4.1, §4.2).  `dijkstra`, `printShortestPath`, `loadNodes`,
`loadEdges` and `app` are translated directly from `src/main.c`.

Machine arithmetic: `unsigned int` values are `Nat` reduced modulo `2^32`
where the C code can wrap; `int` values are `Int`.
-/

namespace SPath

/-- `UINT_MAX`, the "infinity" sentinel for distances. -/
def UINT_MAX : Nat := 4294967295

/-- `2^32`, the modulus of `unsigned int` arithmetic. -/
def UMOD : Nat := 4294967296

/-- Modelled from the spec: an `Edge` record of `graph.h` (missing from the
sources): destination node (by id) and signed `mindelay` weight. -/
structure Edge where
  destination : Nat
  mindelay : Int
deriving Repr, DecidableEq

/-- Modelled from the spec: the per-node data of `graph.h` (missing from the
sources): immutable id and the ordered adjacency list.  The mutable search
state (`distance`, `previous`) lives in `SearchState`. -/
structure NodeData where
  id : Nat
  edges : List Edge
deriving Repr, DecidableEq

/-- Modelled from the spec: the `Graph` of `graph.c` (missing from the
sources): owns all nodes, keyed by id; represented as the list of nodes in
insertion order. -/
abbrev Graph : Type := List NodeData

/-- Modelled from the spec: `graph_get_node` of `graph.c` (missing from the
sources): id-indexed lookup, `none` when absent. -/
def graph_get_node (g : Graph) (id : Nat) : Option NodeData :=
  List.find? (fun nd => nd.id == id) g

/-- Modelled from the spec: `graph_insert_node` of `graph.c` (missing from
the sources): idempotent insertion of a node with empty adjacency list
(allocation failure is not modelled). -/
def graph_insert_node (g : Graph) (id : Nat) : Graph :=
  if List.any g (fun nd => nd.id == id) then g
  else List.append g [⟨id, []⟩]

/-- Modelled from the spec: `graph_insert_edge` of `graph.c` (missing from
the sources): ensures both endpoints exist (implicit node creation), then
appends the edge to the source node's adjacency list. -/
def graph_insert_edge (g : Graph) (source dest : Nat) (w : Int) : Graph :=
  let g1 := graph_insert_node (graph_insert_node g source) dest
  List.map (fun nd => if nd.id == source
                      then { nd with edges := nd.edges ++ [⟨dest, w⟩] }
                      else nd) g1

/-- The adjacency list reachable through `node_get_edges` for a node id
(empty for ids absent from the graph). -/
def edgesOf (g : Graph) (id : Nat) : List Edge :=
  match graph_get_node g id with
  | some nd => nd.edges
  | none => []

/-- The ids stored in the graph, in storage order (the order the heap is
built from). -/
def ids (g : Graph) : List Nat := List.map (fun nd => nd.id) g

/-- The mutable per-node search state plus the heap contents.  Modelled from
the spec: `heap.c` is missing from the sources, so the heap is represented by
the list of not-yet-extracted node ids (§4.2: extraction order among equal
keys is unspecified, so a list with a deterministic min-selection is a
faithful refinement). -/
structure SearchState where
  dist : Nat → Nat
  prev : Nat → Option Nat
  heap : List Nat

/-- Modelled from the spec: `heap_decrease_distance` of `heap.c` (missing
from the sources), §4.2: sets the node's distance and predecessor; the
sift-up only reorders the backing array, which the list model keeps
abstract. -/
def heap_decrease_distance (s : SearchState) (nid : Nat) (d : Nat)
    (p : Option Nat) : SearchState :=
  { s with dist := fun n => if n = nid then d else s.dist n,
           prev := fun n => if n = nid then p else s.prev n }

/-- Modelled from the spec: the node `heap_extract_min` returns, §4.2: an
element of minimal distance (ties broken arbitrarily; the model picks the
leftmost minimum). -/
def selectMin (dist : Nat → Nat) (x : Nat) (xs : List Nat) : Nat :=
  List.foldl (fun b a => if dist a < dist b then a else b) x xs

/-- The relaxation candidate `alt = d + tmp_edges[i].mindelay` of
`src/main.c:170`: `unsigned int` plus `int`, i.e. the sum reduced
modulo `2^32`. -/
def relaxCandidate (d : Nat) (w : Int) : Nat :=
  (d + (w % (UMOD : Int)).toNat) % UMOD

/-- The relaxation loop body of `dijkstra` (`src/main.c:168-174`): for each
outgoing edge of the extracted node `u` (finalized distance `d`), update the
destination via `heap_decrease_distance` iff the candidate is strictly
smaller than its current distance. -/
def relaxEdges (u : Nat) (d : Nat) : SearchState → List Edge → SearchState
  | s, [] => s
  | s, e :: es =>
      let alt := relaxCandidate d e.mindelay
      let s' := if alt < s.dist e.destination
                then heap_decrease_distance s e.destination alt (some u)
                else s
      relaxEdges u d s' es

/-- Result of one iteration of the `while` loop of `dijkstra`:
`done` = the loop returns, `next` = the loop continues. -/
inductive StepRes where
  | done (s : SearchState)
  | next (s : SearchState)

/-- The state carried by a step result. -/
def StepRes.state : StepRes → SearchState
  | .done s => s
  | .next s => s

/-- One iteration of the `while (!heap_is_empty(h))` loop of `dijkstra`
(`src/main.c:162-178`) on a nonempty heap `x :: xs`: extract the minimum,
break if its distance is `UINT_MAX`, otherwise relax its outgoing edges and
return early if it is the destination. -/
def dijkstraStep (g : Graph) (dest : Nat) (s : SearchState) (x : Nat)
    (xs : List Nat) : StepRes :=
  let node := selectMin s.dist x xs
  let s1 : SearchState := { s with heap := (x :: xs).erase node }
  let alt := s1.dist node
  if alt = UINT_MAX then .done s1
  else
    let s2 := relaxEdges node alt s1 (edgesOf g node)
    if node = dest then .done s2 else .next s2

/-- The `while` loop of `dijkstra`, fuel-indexed (the C loop terminates
because each iteration removes one node from the heap; `fuel` at least the
heap size reproduces it exactly). -/
def dijkstraLoop (g : Graph) (dest : Nat) : Nat → SearchState → SearchState
  | 0, s => s
  | fuel + 1, s =>
    match s.heap with
    | [] => s
    | x :: xs =>
      match dijkstraStep g dest s x xs with
      | .done s' => s'
      | .next s' => dijkstraLoop g dest fuel s'

/-- `dijkstra` of `src/main.c:145-180`: build the heap over all nodes
(distances at `UINT_MAX`, predecessors `none`), fail (`none`) when the
source id is absent, set the source distance to `0`, then run the loop.
The target is identified by id (pointer comparison in C; ids are unique in
loader-built graphs). -/
def dijkstra (g : Graph) (source_id : Nat) (dest : Nat) : Option SearchState :=
  match graph_get_node g source_id with
  | none => none
  | some _ =>
    let s0 : SearchState :=
      { dist := fun _ => UINT_MAX, prev := fun _ => none, heap := ids g }
    let s1 := heap_decrease_distance s0 source_id 0 none
    some (dijkstraLoop g dest s1.heap.length s1)

/-- Final distance of node `n` reported by `dijkstra g src dest`
(`0` when the search itself failed on an invalid source). -/
def dijkstraDist (g : Graph) (src dest n : Nat) : Nat :=
  match dijkstra g src dest with
  | some s => s.dist n
  | none => 0

/-- Final predecessor of node `n` reported by `dijkstra g src dest`. -/
def dijkstraPrev (g : Graph) (src dest n : Nat) : Option Nat :=
  match dijkstra g src dest with
  | some s => s.prev n
  | none => none

/-- `unsigned int` subtraction `a - b` of `src/main.c:188`, i.e. the
difference modulo `2^32`. -/
def usub (a b : Nat) : Nat :=
  (a % UMOD + UMOD - b % UMOD) % UMOD

/-- One output line `\t%u -> %u [label=%u];` of `printShortestPath`. -/
def edgeLine (p n label : Nat) : String :=
  "\t" ++ toString p ++ " -> " ++ toString n ++ " [label=" ++
    toString label ++ "];"

/-- The `while (tmp_prev)` loop of `printShortestPath`
(`src/main.c:186-191`): from `cur`, while the predecessor exists, print the
edge `prev -> cur` labelled with the unsigned distance difference and step
backward.  Fuel-indexed (the C loop has no bound of its own; any fuel at
least the predecessor-chain length reproduces it). -/
def printLoop (distf : Nat → Nat) (prevf : Nat → Option Nat) :
    Nat → Nat → List String
  | 0, _ => []
  | fuel + 1, cur =>
    match prevf cur with
    | none => []
    | some p =>
        edgeLine p cur (usub (distf cur) (distf p)) ::
          printLoop distf prevf fuel p

/-- The predecessor links traversed by the renderer's walk, as
`(previous, current)` pairs in traversal order (target end first). -/
def walkEdges (prevf : Nat → Option Nat) : Nat → Nat → List (Nat × Nat)
  | 0, _ => []
  | fuel + 1, cur =>
    match prevf cur with
    | none => []
    | some p => (p, cur) :: walkEdges prevf fuel p

/-- `printShortestPath` of `src/main.c:182-194` as the list of lines it
writes: the `digraph` envelope, and the predecessor walk from the target
unless the target's id equals `source_id`. -/
def printShortestPath (source_id : Nat) (destId : Nat) (distf : Nat → Nat)
    (prevf : Nat → Option Nat) (fuel : Nat) : List String :=
  "digraph \x7b" ::
    ((if source_id ≠ destId then printLoop distf prevf fuel destId else [])
      ++ ["\x7d"])

/-- Modelled from the spec: `isspace` of the C library used by `atoi`
(`strtol` skips leading white-space). -/
def isSpaceC (c : Char) : Bool :=
  c = ' ' ∨ c = '\t' ∨ c = '\n' ∨ c = '\x0b' ∨ c = '\x0c' ∨ c = '\x0d'

/-- Decimal value of a maximal leading digit run. -/
def digitsVal : List Char → Nat → Nat
  | [], acc => acc
  | c :: cs, acc =>
      if c.isDigit then digitsVal cs (acc * 10 + (c.toNat - 48)) else acc

/-- Modelled from the spec: the C library `atoi` used by the loaders and by
`app` (§7: "Numeric parsing of malformed ids/weights ... silently yields
zero"): skip white-space, read an optional sign and a maximal digit run;
no digits means `0`.  (Overflow of `int` is undefined in C and not
modelled.) -/
def atoi (str : String) : Int :=
  match List.dropWhile isSpaceC str.data with
  | '-' :: rest => - (Int.ofNat (digitsVal (List.takeWhile Char.isDigit rest) 0))
  | '+' :: rest => Int.ofNat (digitsVal (List.takeWhile Char.isDigit rest) 0)
  | cs => Int.ofNat (digitsVal (List.takeWhile Char.isDigit cs) 0)

/-- `atoi` converted to `unsigned int` (conversion is reduction mod `2^32`),
as in `unsigned int id = atoi(token)` of `loadNodes` and the id arguments of
`app`. -/
def atoiU (str : String) : Nat :=
  ((atoi str) % (UMOD : Int)).toNat

/-- Split a character list at every comma (the fields of one input line,
empty fields included). -/
def splitFields : List Char → List Char → List String
  | [], acc => [String.mk (List.reverse acc)]
  | c :: cs, acc =>
      if c = ',' then String.mk (List.reverse acc) :: splitFields cs []
      else splitFields cs (c :: acc)

/-- Modelled from the spec: the token sequence `strtok(buffer, ",")` yields
for one input line: maximal runs of non-comma characters, i.e. the comma
fields with the empty ones skipped. -/
def strtokAll (line : String) : List String :=
  List.filter (fun t => t ≠ "") (splitFields line.data [])

/-- `loadNodes` of `src/main.c:110-122` over the list of input lines: for
each line, parse the first comma token with `atoi` and insert the node.
`none` models the undefined behaviour of `atoi(NULL)` when a line has no
token at all (allocation failure is not modelled). -/
def loadNodes (g : Graph) : List String → Option Graph
  | [] => some g
  | line :: rest =>
    match strtokAll line with
    | [] => none
    | t :: _ => loadNodes (graph_insert_node g (atoiU t)) rest

/-- `loadEdges` of `src/main.c:124-143` over the list of input lines: each
line yields four comma tokens — source id, destination id, a discarded
field, and the signed weight — and inserts the edge.  `none` models the
undefined behaviour of `atoi(NULL)` when fewer than four tokens exist. -/
def loadEdges (g : Graph) : List String → Option Graph
  | [] => some g
  | line :: rest =>
    match strtokAll line with
    | t1 :: t2 :: _t3 :: t4 :: _ =>
        loadEdges (graph_insert_edge g (atoiU t1) (atoiU t2) (atoi t4)) rest
    | _ => none

/-- The error classes of `errorType` in `src/main.c` that `app` can reach
after the graph is loaded. -/
inductive AppError where
  | invalidSourceNodeId
  | invalidDestNodeId
  | noPath
deriving Repr, DecidableEq

/-- Observable outcome of a run of `app`: the exit code, the error reported
to `stderr` (if any), and the rendered output (`none` when no output is
produced, i.e. no output file is created and nothing is printed). -/
structure AppResult where
  exitCode : Nat
  error : Option AppError
  output : Option (List String)
deriving Repr, DecidableEq

/-- The core of `app` (`src/main.c:236-279`) after the graph has been
loaded: look up the destination by `atoi(destNode)`, run `dijkstra` from
`atoi(sourceNode)`, report `NO_PATH` when the destination's distance is
still `UINT_MAX`, otherwise render the path.  File handling and allocation
failure are not modelled; the renderer's fuel is the node count. -/
def appRun (g : Graph) (sourceArg destArg : String) : AppResult :=
  match graph_get_node g (atoiU destArg) with
  | none => ⟨1, some .invalidDestNodeId, none⟩
  | some destNode =>
    match dijkstra g (atoiU sourceArg) destNode.id with
    | none => ⟨1, some .invalidSourceNodeId, none⟩
    | some s =>
      if s.dist destNode.id = UINT_MAX then ⟨1, some .noPath, none⟩
      else ⟨0, none,
        some (printShortestPath (atoiU sourceArg) destNode.id s.dist s.prev
          (List.length g))⟩

/-- The distance reached at node `v` once the edges `es` out of `u` (with
base distance `d`) have all been relaxed, starting from current distance
`d0`: the minimum of `d0` and the candidates of the edges into `v`. -/
def minRelax (d0 : Nat) (d : Nat) (es : List Edge) (v : Nat) : Nat :=
  List.foldl
    (fun acc e => if e.destination = v
                  then min acc (relaxCandidate d e.mindelay) else acc)
    d0 es

/-- The renderer's walk as the specification words it (§4.4): walk
`previous` links from the target "back to the node whose id equals
`source_id`", the id-equality test being the terminal condition.  Stated
for comparison with `printLoop`, the walk the code actually performs. -/
def printLoopSpec (source_id : Nat) (distf : Nat → Nat)
    (prevf : Nat → Option Nat) : Nat → Nat → List String
  | 0, _ => []
  | fuel + 1, cur =>
    if cur = source_id then []
    else
      match prevf cur with
      | none => []
      | some p =>
          edgeLine p cur (usub (distf cur) (distf p)) ::
            printLoopSpec source_id distf prevf fuel p

/-- A walk from `src` to a node together with its mathematical cost (exact
integer arithmetic, no wrap-around): `src` is reached at cost `0`, and an
edge `e` out of a reached node extends the cost by `e.mindelay`. -/
inductive CostReach (g : Graph) (src : Nat) : Nat → Int → Prop
  | refl : CostReach g src src 0
  | tail {a : Nat} {c : Int} {e : Edge} :
      CostReach g src a c → e ∈ edgesOf g a →
      CostReach g src e.destination (c + e.mindelay)

/-- Some edge path connects `src` to `n`. -/
def Reaches (g : Graph) (src n : Nat) : Prop :=
  ∃ c, CostReach g src n c

/-- The concrete scenario graph of §8: nodes `{1,2,3}`, edges
`(1,2,w=5)`, `(2,3,w=2)`, `(1,3,w=10)`. -/
def cGraph1 : Graph :=
  graph_insert_edge
    (graph_insert_edge
      (graph_insert_edge
        (graph_insert_node (graph_insert_node (graph_insert_node
          ([] : Graph) 1) 2) 3)
        1 2 5)
      2 3 2)
    1 3 10

/-- A graph with non-negative weights whose only path `1 → 2 → 3 → 4` has
mathematical cost `2^32 + 2`, above the sentinel: the unsigned relaxation
wraps. -/
def cGraphOver : Graph :=
  graph_insert_edge
    (graph_insert_edge
      (graph_insert_edge
        (graph_insert_node (graph_insert_node (graph_insert_node
          (graph_insert_node ([] : Graph) 1) 2) 3) 4)
        1 2 2147483647)
      2 3 2147483647)
    3 4 4

/-- Two isolated nodes: no path from `1` to `2`. -/
def cGraphNoPath : Graph :=
  graph_insert_node (graph_insert_node ([] : Graph) 1) 2

/-- The optional sign character `atoi` consumes after the white-space. -/
def stripSign : List Char → List Char
  | '-' :: rest => rest
  | '+' :: rest => rest
  | cs => cs

/-- A field is non-numeric for `atoi` when, after the white-space and an
optional sign, no digit follows: the digit run `atoi` reads is empty. -/
def nonNumericB (str : String) : Bool :=
  (List.takeWhile Char.isDigit
    (stripSign (List.dropWhile isSpaceC str.data))).isEmpty

/-- Reach invariant of the search: every node whose tentative distance has
left the `UINT_MAX` sentinel is connected to the source by an edge path. -/
def ReachInv (g : Graph) (src : Nat) (s : SearchState) : Prop :=
  ∀ n, s.dist n ≠ UINT_MAX → Reaches g src n

/-- The inductive invariant of the search loop, for non-negative weights
without arithmetic wrap: the heap holds graph nodes without duplicates;
distances never exceed the sentinel; every finite distance is the cost of a
real path; the source stays at `0`; extracted (finalized) distances are
below every heap distance; and every outgoing edge of a finalized node is
relaxed. -/
structure DijkInv (g : Graph) (src : Nat) (s : SearchState) : Prop where
  hsub : ∀ n ∈ s.heap, n ∈ ids g
  hnd : s.heap.Nodup
  hdb : ∀ n, s.dist n ≤ UINT_MAX
  hach : ∀ n, s.dist n ≠ UINT_MAX → CostReach g src n (s.dist n : Int)
  hsrc0 : s.dist src = 0
  hmono : ∀ u ∈ ids g, u ∉ s.heap → ∀ v ∈ s.heap, s.dist u ≤ s.dist v
  hrelaxed : ∀ u ∈ ids g, u ∉ s.heap → ∀ e ∈ edgesOf g u,
    ((s.dist e.destination : Int)) ≤ (s.dist u : Int) + e.mindelay

/-! ### Basic lemmas about the heap- and relaxation-model -/

theorem hdd_dist (s : SearchState) (nid : Nat) (d : Nat) (p : Option Nat)
    (n : Nat) :
    (heap_decrease_distance s nid d p).dist n = if n = nid then d else s.dist n :=
  rfl

theorem hdd_prev (s : SearchState) (nid : Nat) (d : Nat) (p : Option Nat)
    (n : Nat) :
    (heap_decrease_distance s nid d p).prev n = if n = nid then p else s.prev n :=
  rfl

theorem hdd_heap (s : SearchState) (nid : Nat) (d : Nat) (p : Option Nat) :
    (heap_decrease_distance s nid d p).heap = s.heap :=
  rfl

theorem searchState_mk_dist (d : Nat → Nat) (p : Nat → Option Nat)
    (h : List Nat) : (SearchState.mk d p h).dist = d := rfl

theorem searchState_mk_heap (d : Nat → Nat) (p : Nat → Option Nat)
    (h : List Nat) : (SearchState.mk d p h).heap = h := rfl

theorem minRelax_nil (d0 d v : Nat) : minRelax d0 d [] v = d0 := rfl

theorem minRelax_cons (d0 d v : Nat) (e : Edge) (es : List Edge) :
    minRelax d0 d (e :: es) v =
      minRelax (if e.destination = v
                then min d0 (relaxCandidate d e.mindelay) else d0) d es v :=
  rfl

theorem minRelax_le (d v : Nat) :
    ∀ (es : List Edge) (d0 : Nat), minRelax d0 d es v ≤ d0 := by
  intro es
  induction es with
  | nil => intro d0; simp [minRelax_nil]
  | cons e es ih =>
      intro d0
      rw [minRelax_cons]
      by_cases h : e.destination = v
      · simp only [h, if_pos rfl]
        exact le_trans (ih _) (min_le_left _ _)
      · simp only [if_neg h]
        exact ih d0

theorem relaxEdges_heap (u d : Nat) :
    ∀ (es : List Edge) (s : SearchState), (relaxEdges u d s es).heap = s.heap := by
  intro es
  induction es with
  | nil => intro s; rfl
  | cons e es ih =>
      intro s
      show (relaxEdges u d _ es).heap = s.heap
      rw [ih]
      by_cases h : relaxCandidate d e.mindelay < s.dist e.destination <;>
        simp [h, hdd_heap]

/-- Effect of relaxing a whole edge list on one node `v`: the final distance
is the minimum of the current one and all candidates of edges into `v`, and
the predecessor becomes the relaxing node exactly when that minimum is a
strict improvement. -/
theorem relaxEdges_dist_prev (u d v : Nat) :
    ∀ (es : List Edge) (s : SearchState),
      (relaxEdges u d s es).dist v = minRelax (s.dist v) d es v ∧
      (relaxEdges u d s es).prev v =
        (if minRelax (s.dist v) d es v < s.dist v then some u else s.prev v) := by
  intro es
  induction es with
  | nil =>
      intro s
      refine ⟨rfl, ?_⟩
      rw [minRelax_nil, if_neg (lt_irrefl _)]
      rfl
  | cons e es ih =>
      intro s
      show (relaxEdges u d _ es).dist v = _ ∧ (relaxEdges u d _ es).prev v = _
      by_cases hd : e.destination = v
      · by_cases hlt : relaxCandidate d e.mindelay < s.dist e.destination
        · -- the edge improves v (or its own destination = v): update happens
          simp only [if_pos hlt]
          obtain ⟨ihd, ihp⟩ := ih (heap_decrease_distance s e.destination
            (relaxCandidate d e.mindelay) (some u))
          rw [minRelax_cons, if_pos hd]
          subst hd
          have hdist : (heap_decrease_distance s e.destination
              (relaxCandidate d e.mindelay) (some u)).dist e.destination =
              relaxCandidate d e.mindelay := by
            rw [hdd_dist, if_pos rfl]
          have hmin : min (s.dist e.destination) (relaxCandidate d e.mindelay) =
              relaxCandidate d e.mindelay :=
            min_eq_right (le_of_lt hlt)
          constructor
          · rw [ihd, hdist, hmin]
          · rw [ihp, hdist, hmin]
            by_cases h2 : minRelax (relaxCandidate d e.mindelay) d es
                e.destination < relaxCandidate d e.mindelay
            · rw [if_pos h2, if_pos (lt_trans h2 hlt)]
            · rw [if_neg h2, hdd_prev, if_pos rfl,
                if_pos (lt_of_le_of_lt (minRelax_le _ _ _ _) hlt)]
        · -- no improvement: state unchanged at this step
          simp only [if_neg hlt]
          obtain ⟨ihd, ihp⟩ := ih s
          rw [minRelax_cons, if_pos hd]
          subst hd
          have hmin : min (s.dist e.destination) (relaxCandidate d e.mindelay) =
              s.dist e.destination :=
            min_eq_left (le_of_not_lt hlt)
          rw [hmin]
          exact ⟨ihd, ihp⟩
      · -- the edge goes elsewhere: v is untouched by this step
        rw [minRelax_cons, if_neg hd]
        by_cases hlt : relaxCandidate d e.mindelay < s.dist e.destination
        · simp only [if_pos hlt]
          obtain ⟨ihd, ihp⟩ := ih (heap_decrease_distance s e.destination
            (relaxCandidate d e.mindelay) (some u))
          have hne : ¬ (v = e.destination) := fun h => hd h.symm
          have h1 : (heap_decrease_distance s e.destination
              (relaxCandidate d e.mindelay) (some u)).dist v = s.dist v := by
            rw [hdd_dist, if_neg hne]
          have h2 : (heap_decrease_distance s e.destination
              (relaxCandidate d e.mindelay) (some u)).prev v = s.prev v := by
            rw [hdd_prev, if_neg hne]
          refine ⟨?_, ?_⟩
          · rw [ihd, h1]
          · rw [ihp, h1, h2]
        · simp only [if_neg hlt]
          exact ih s

theorem selectMin_mem (dist : Nat → Nat) :
    ∀ (xs : List Nat) (x : Nat), selectMin dist x xs ∈ x :: xs := by
  intro xs
  induction xs with
  | nil => intro x; simp [selectMin]
  | cons a as ih =>
      intro x
      show selectMin dist (if dist a < dist x then a else x) as ∈ x :: a :: as
      rcases List.mem_cons.mp (ih (if dist a < dist x then a else x)) with h | h
      · rw [h]
        by_cases hc : dist a < dist x <;> simp [hc]
      · simp [h]

theorem selectMin_le (dist : Nat → Nat) :
    ∀ (xs : List Nat) (x : Nat) (m : Nat), m ∈ x :: xs →
      dist (selectMin dist x xs) ≤ dist m := by
  intro xs
  induction xs with
  | nil =>
      intro x m hm
      rcases List.mem_cons.mp hm with h | h
      · rw [h]; exact le_refl _
      · cases h
  | cons a as ih =>
      intro x m hm
      have step : ∀ y, y ∈ (if dist a < dist x then a else x) :: as →
          dist (selectMin dist x (a :: as)) ≤ dist y := by
        intro y hy
        exact ih (if dist a < dist x then a else x) y hy
      have hsel : dist (selectMin dist x (a :: as)) ≤
          dist (if dist a < dist x then a else x) :=
        step _ (List.mem_cons_self _ _)
      rcases List.mem_cons.mp hm with h | h
      · rw [h]
        refine le_trans hsel ?_
        by_cases hc : dist a < dist x
        · rw [if_pos hc]; exact le_of_lt hc
        · rw [if_neg hc]
      · rcases List.mem_cons.mp h with h2 | h2
        · rw [h2]
          refine le_trans hsel ?_
          by_cases hc : dist a < dist x
          · rw [if_pos hc]
          · rw [if_neg hc]; exact le_of_not_lt hc
        · exact step m (List.mem_cons_of_mem _ h2)

theorem dijkstraStep_heap (g : Graph) (dest : Nat) (s : SearchState)
    (x : Nat) (xs : List Nat) :
    (dijkstraStep g dest s x xs).state.heap =
      (x :: xs).erase (selectMin s.dist x xs) := by
  unfold dijkstraStep
  by_cases h1 : s.dist (selectMin s.dist x xs) = UINT_MAX
  · simp only [if_pos h1, StepRes.state]
  · simp only [if_neg h1]
    by_cases h2 : selectMin s.dist x xs = dest <;>
      simp [h2, StepRes.state, relaxEdges_heap]

theorem dijkstraLoop_zero (g : Graph) (dest : Nat) (s : SearchState) :
    dijkstraLoop g dest 0 s = s := rfl

theorem dijkstraLoop_nil (g : Graph) (dest : Nat) (fuel : Nat)
    (s : SearchState) (h : s.heap = []) :
    dijkstraLoop g dest (fuel + 1) s = s := by
  have e : dijkstraLoop g dest (fuel + 1) s =
      (match s.heap with
       | [] => s
       | x :: xs =>
         match dijkstraStep g dest s x xs with
         | .done s' => s'
         | .next s' => dijkstraLoop g dest fuel s') := rfl
  rw [e, h]

theorem dijkstraLoop_cons (g : Graph) (dest : Nat) (fuel : Nat)
    (s : SearchState) (x : Nat) (xs : List Nat) (h : s.heap = x :: xs) :
    dijkstraLoop g dest (fuel + 1) s =
      (match dijkstraStep g dest s x xs with
       | .done s' => s'
       | .next s' => dijkstraLoop g dest fuel s') := by
  have e : dijkstraLoop g dest (fuel + 1) s =
      (match s.heap with
       | [] => s
       | x :: xs =>
         match dijkstraStep g dest s x xs with
         | .done s' => s'
         | .next s' => dijkstraLoop g dest fuel s') := rfl
  rw [e, h]

theorem dijkstraStep_heap_length (g : Graph) (dest : Nat) (s : SearchState)
    (x : Nat) (xs : List Nat) :
    ((dijkstraStep g dest s x xs).state.heap).length = xs.length := by
  rw [dijkstraStep_heap]
  rw [List.length_erase_of_mem (selectMin_mem s.dist xs x)]
  rfl

theorem dijkstraLoop_fuel (g : Graph) (dest : Nat) :
    ∀ (n : Nat) (s : SearchState), s.heap.length ≤ n →
      ∀ m, n ≤ m → dijkstraLoop g dest m s = dijkstraLoop g dest n s := by
  intro n
  induction n with
  | zero =>
      intro s hs m _
      have hnil : s.heap = [] := List.eq_nil_of_length_eq_zero (by omega)
      cases m with
      | zero => rfl
      | succ m => rw [dijkstraLoop_nil g dest m s hnil, dijkstraLoop_zero]
  | succ n ih =>
      intro s hs m hm
      obtain ⟨m', rfl⟩ : ∃ m', m = m' + 1 := ⟨m - 1, by omega⟩
      cases hheap : s.heap with
      | nil => rw [dijkstraLoop_nil g dest m' s hheap, dijkstraLoop_nil g dest n s hheap]
      | cons x xs =>
          rw [dijkstraLoop_cons g dest m' s x xs hheap,
            dijkstraLoop_cons g dest n s x xs hheap]
          cases hstep : dijkstraStep g dest s x xs with
          | done s' => rfl
          | next s' =>
              show dijkstraLoop g dest m' s' = dijkstraLoop g dest n s'
              have hlen : s'.heap.length = xs.length := by
                have := dijkstraStep_heap_length g dest s x xs
                rw [hstep] at this
                exact this
              have hxs : xs.length ≤ n := by
                have : s.heap.length = xs.length + 1 := by rw [hheap]; rfl
                omega
              rw [ih s' (by omega) m' (by omega)]

/-! ### C9: relaxation arithmetic is `unsigned` mod-`2^32` -/

theorem relaxCandidate_emod (d : Nat) (w : Int) :
    ((relaxCandidate d w : Nat) : Int) = ((d : Int) + w) % (UMOD : Int) := by
  unfold relaxCandidate UMOD
  have hnn : (0 : Int) ≤ w % 4294967296 :=
    Int.emod_nonneg w (by norm_num)
  push_cast [Int.toNat_of_nonneg hnn]
  omega

/-- For a non-negative weight whose true sum stays below the sentinel, the
unsigned candidate is the exact sum. -/
theorem relaxCandidate_exact (d : Nat) (w : Int) (h0 : 0 ≤ w)
    (hub : (d : Int) + w < (UINT_MAX : Int)) :
    ((relaxCandidate d w : Nat) : Int) = (d : Int) + w := by
  rw [relaxCandidate_emod]
  have hM : (UMOD : Int) = 4294967296 := by norm_num [UMOD]
  have hX : (UINT_MAX : Int) = 4294967295 := by norm_num [UINT_MAX]
  rw [hM]
  rw [hX] at hub
  omega

/-- C9: the relaxation candidate of `dijkstra` equals the sum of the
finalized distance and the signed edge weight reduced modulo `2^32`
(the `int` weight is converted to `unsigned int` before the addition);
in particular a weight making the true sum negative wraps around,
producing the large value `sum + 2^32`. -/
theorem relaxCandidate_unsigned_wrap :
    (∀ (d : Nat) (w : Int),
       ((relaxCandidate d w : Nat) : Int) = ((d : Int) + w) % (UMOD : Int)) ∧
    (∀ (d : Nat) (w : Int), w < 0 → -(UMOD : Int) ≤ (d : Int) + w →
       (d : Int) + w < 0 →
       ((relaxCandidate d w : Nat) : Int) = (d : Int) + w + (UMOD : Int)) := by
  refine ⟨relaxCandidate_emod, ?_⟩
  intro d w _ hlb hneg
  have hM : (UMOD : Int) = 4294967296 := by norm_num [UMOD]
  rw [relaxCandidate_emod d w, hM]
  rw [hM] at hlb
  omega

/-- Witness for C9 at `d = 5`, `w = -6`: the candidate wraps to
`5 - 6 + 2^32 = 4294967295`. -/
theorem relaxCandidate_unsigned_wrap_witness :
    ((relaxCandidate 5 (-6) : Nat) : Int) = (5 : Int) + (-6) + (UMOD : Int) :=
  relaxCandidate_unsigned_wrap.2 5 (-6) (by decide) (by decide) (by decide)

/-! ### C2: the relaxation update happens iff the candidate improves -/

/-- C2: in an iteration of the search loop extracting a node of finite
distance, every node `v` ends with distance `min` of its current distance
and the candidates `extracted distance + weight` of the extracted node's
outgoing edges into `v`, and its predecessor is set to the extracted node
(via `heap_decrease_distance`) if and only if that minimum strictly
improves the current distance. -/
theorem dijkstra_relaxation_iff (g : Graph) (dest : Nat) (s : SearchState)
    (x : Nat) (xs : List Nat)
    (h : s.dist (selectMin s.dist x xs) ≠ UINT_MAX) (v : Nat) :
    (dijkstraStep g dest s x xs).state.dist v =
      minRelax (s.dist v) (s.dist (selectMin s.dist x xs))
        (edgesOf g (selectMin s.dist x xs)) v ∧
    (dijkstraStep g dest s x xs).state.prev v =
      (if minRelax (s.dist v) (s.dist (selectMin s.dist x xs))
            (edgesOf g (selectMin s.dist x xs)) v < s.dist v
       then some (selectMin s.dist x xs) else s.prev v) := by
  unfold dijkstraStep
  simp only [if_neg h]
  by_cases h2 : selectMin s.dist x xs = dest <;>
    · simp only [h2, if_pos, if_neg, ite_true, ite_false, StepRes.state]
      exact relaxEdges_dist_prev _ _ v _ _

/-- Witness for C2 on a one-node state with empty graph: nothing changes. -/
theorem dijkstra_relaxation_iff_witness :
    (dijkstraStep ([] : Graph) 0 ⟨fun _ => 0, fun _ => none, [1]⟩ 1 []).state.dist 0 =
      minRelax 0 0 (edgesOf ([] : Graph) 1) 0 ∧
    (dijkstraStep ([] : Graph) 0 ⟨fun _ => 0, fun _ => none, [1]⟩ 1 []).state.prev 0 =
      (if minRelax 0 0 (edgesOf ([] : Graph) 1) 0 < 0 then some 1 else none) := by
  have := dijkstra_relaxation_iff ([] : Graph) 0
    ⟨fun _ => 0, fun _ => none, [1]⟩ 1 [] (by decide) 0
  exact this

/-! ### C7: the loop removes one node per iteration and terminates -/

/-- C7: each iteration of the search loop removes exactly one node (the
extracted minimum) from the heap; consequently any fuel at least the heap
size computes the loop's fixpoint (the loop terminates); and when the
extracted minimum's distance is the `UINT_MAX` sentinel the loop exits at
once, the extraction being the only state change of that final iteration. -/
theorem dijkstra_loop_terminates (g : Graph) (dest : Nat) :
    (∀ (s : SearchState) (x : Nat) (xs : List Nat),
       (dijkstraStep g dest s x xs).state.heap =
         (x :: xs).erase (selectMin s.dist x xs) ∧
       ((dijkstraStep g dest s x xs).state.heap).length = xs.length) ∧
    (∀ (s : SearchState) (x : Nat) (xs : List Nat) (fuel : Nat),
       s.heap = x :: xs →
       s.dist (selectMin s.dist x xs) = UINT_MAX →
       dijkstraLoop g dest (fuel + 1) s =
         { s with heap := (x :: xs).erase (selectMin s.dist x xs) }) ∧
    (∀ (n m : Nat) (s : SearchState), s.heap.length ≤ n → n ≤ m →
       dijkstraLoop g dest m s = dijkstraLoop g dest n s) := by
  refine ⟨fun s x xs => ⟨dijkstraStep_heap g dest s x xs,
    dijkstraStep_heap_length g dest s x xs⟩, ?_, fun n m s hn hm =>
    dijkstraLoop_fuel g dest n s hn m hm⟩
  intro s x xs fuel hheap hinf
  rw [dijkstraLoop_cons g dest fuel s x xs hheap]
  have estep : dijkstraStep g dest s x xs =
      .done { s with heap := (x :: xs).erase (selectMin s.dist x xs) } := by
    unfold dijkstraStep
    simp only [if_pos hinf]
  rw [estep]

/-- Witness for C7 on a one-node heap at the sentinel distance: the step
empties the heap and the loop stops regardless of extra fuel. -/
theorem dijkstra_loop_terminates_witness :
    (dijkstraStep ([] : Graph) 0 ⟨fun _ => UINT_MAX, fun _ => none, [5]⟩ 5 []).state.heap =
      ([5] : List Nat).erase (selectMin (fun _ => UINT_MAX) 5 []) ∧
    dijkstraLoop ([] : Graph) 0 3 ⟨fun _ => UINT_MAX, fun _ => none, [5]⟩ =
      { (⟨fun _ => UINT_MAX, fun _ => none, [5]⟩ : SearchState) with
          heap := ([5] : List Nat).erase (selectMin (fun _ => UINT_MAX) 5 []) } ∧
    dijkstraLoop ([] : Graph) 0 7 ⟨fun _ => UINT_MAX, fun _ => none, [5]⟩ =
      dijkstraLoop ([] : Graph) 0 1 ⟨fun _ => UINT_MAX, fun _ => none, [5]⟩ := by
  refine ⟨((dijkstra_loop_terminates ([] : Graph) 0).1 _ 5 []).1, ?_, ?_⟩
  · exact (dijkstra_loop_terminates ([] : Graph) 0).2.1 _ 5 [] 2 rfl rfl
  · exact (dijkstra_loop_terminates ([] : Graph) 0).2.2 1 7 _ (by decide) (by decide)

/-! ### C4: shape and order of the rendered output -/

theorem printLoop_eq_walkEdges (distf : Nat → Nat) (prevf : Nat → Option Nat) :
    ∀ (fuel cur : Nat),
      printLoop distf prevf fuel cur =
        List.map (fun pr : Nat × Nat =>
            edgeLine pr.1 pr.2 (usub (distf pr.2) (distf pr.1)))
          (walkEdges prevf fuel cur) := by
  intro fuel
  induction fuel with
  | zero => intro cur; rfl
  | succ fuel ih =>
      intro cur
      show (match prevf cur with
            | none => []
            | some p => edgeLine p cur (usub (distf cur) (distf p)) ::
                printLoop distf prevf fuel p) = _
      cases h : prevf cur with
      | none => simp [walkEdges, h]
      | some p => simp [walkEdges, h, ih p]

/-- C4: the rendered output is the fixed opening marker, one line per
traversed predecessor link — labelled with the unsigned difference of the
endpoints' finalized distances — in traversal order starting at the target
(the walk starts at the target, so the first line is the link nearest the
target and the last the link nearest the source), and the fixed closing
marker; when the source id equals the target id no edge lines are emitted
but the two markers still are. -/
theorem printShortestPath_format (source_id destId : Nat) (distf : Nat → Nat)
    (prevf : Nat → Option Nat) (fuel : Nat) :
    (source_id ≠ destId →
       printShortestPath source_id destId distf prevf fuel =
         "digraph \x7b" ::
           (List.map (fun pr : Nat × Nat =>
               edgeLine pr.1 pr.2 (usub (distf pr.2) (distf pr.1)))
             (walkEdges prevf fuel destId) ++ ["\x7d"])) ∧
    (source_id = destId →
       printShortestPath source_id destId distf prevf fuel =
         ["digraph \x7b", "\x7d"]) := by
  constructor
  · intro h
    unfold printShortestPath
    rw [if_pos h, printLoop_eq_walkEdges]
  · intro h
    unfold printShortestPath
    rw [if_neg (fun hne => hne h)]
    rfl

/-- Witness for C4: a two-link chain `1 → 2 → 3` rendered from target `3`,
and the empty rendering when source and target coincide. -/
theorem printShortestPath_format_witness :
    printShortestPath 1 3
        (fun n => if n = 3 then 7 else if n = 2 then 5 else 0)
        (fun n => if n = 3 then some 2 else if n = 2 then some 1 else none)
        5 =
      "digraph \x7b" ::
        (List.map (fun pr : Nat × Nat =>
            edgeLine pr.1 pr.2
              (usub ((fun n => if n = 3 then 7 else if n = 2 then 5 else 0) pr.2)
                ((fun n => if n = 3 then 7 else if n = 2 then 5 else 0) pr.1)))
          (walkEdges
            (fun n => if n = 3 then some 2 else if n = 2 then some 1 else none)
            5 3) ++ ["\x7d"]) ∧
    printShortestPath 4 4
        (fun n => if n = 3 then 7 else if n = 2 then 5 else 0)
        (fun n => if n = 3 then some 2 else if n = 2 then some 1 else none)
        5 =
      ["digraph \x7b", "\x7d"] :=
  ⟨(printShortestPath_format 1 3 _ _ 5).1 (by decide),
   (printShortestPath_format 4 4 _ _ 5).2 rfl⟩

/-! ### C1: the concrete three-node scenario -/

/-- C1: on the graph with nodes `{1,2,3}` and edges `(1,2,w=5)`,
`(2,3,w=2)`, `(1,3,w=10)`, the search from `1` to `3` reports the path
`1 → 2 → 3` — rendered as the two edge lines `2 -> 3 [label=2]` and
`1 -> 2 [label=5]` — with total distance `7`, and in source-to-target
order the traversed links are `(1,2)` labelled `5` then `(2,3)` labelled
`2`; the direct edge of weight `10` is not used. -/
theorem scenario_shortest_path_1_2_3 :
    appRun cGraph1 "1" "3" =
      ⟨0, none, some ["digraph \x7b", "\t2 -> 3 [label=2];",
        "\t1 -> 2 [label=5];", "\x7d"]⟩ ∧
    dijkstraDist cGraph1 1 3 3 = 7 ∧
    List.map (fun pr : Nat × Nat =>
        (pr.1, pr.2,
          usub (dijkstraDist cGraph1 1 3 pr.2) (dijkstraDist cGraph1 1 3 pr.1)))
      (List.reverse (walkEdges (fun n => dijkstraPrev cGraph1 1 3 n) 3 3)) =
      [(1, 2, 5), (2, 3, 2)] := by
  refine ⟨?_, ?_, ?_⟩ <;> decide

/-! ### C3: the walk's terminal condition -/

/-- Counterexample to C3: on a predecessor chain `3 ← 2 ← 1` with
`source_id = 2`, a walk stopping at the node whose id equals `source_id`
(the spec's wording, `printLoopSpec`) emits one edge line, while the code's
walk (`printLoop`, `while (tmp_prev)` in `src/main.c:187`) keeps going past
node `2` and emits two: the terminal condition actually used is
"previous is none", not the id-equality test. -/
theorem printLoop_terminal_counterexample :
    printLoop (fun _ => 0)
        (fun n => if n = 3 then some 2 else if n = 2 then some 1 else none)
        5 3 =
      [edgeLine 2 3 0, edgeLine 1 2 0] ∧
    printLoopSpec 2 (fun _ => 0)
        (fun n => if n = 3 then some 2 else if n = 2 then some 1 else none)
        5 3 =
      [edgeLine 2 3 0] ∧
    printLoop (fun _ => 0)
        (fun n => if n = 3 then some 2 else if n = 2 then some 1 else none)
        5 3 ≠
      printLoopSpec 2 (fun _ => 0)
        (fun n => if n = 3 then some 2 else if n = 2 then some 1 else none)
        5 3 := by
  refine ⟨?_, ?_, ?_⟩ <;> decide

theorem relaxEdges_keeps_source (src u d : Nat) (es : List Edge)
    (s : SearchState) (h0 : s.dist src = 0) (hp : s.prev src = none) :
    (relaxEdges u d s es).dist src = 0 ∧
    (relaxEdges u d s es).prev src = none := by
  obtain ⟨hd, hpv⟩ := relaxEdges_dist_prev u d src es s
  have hmin : minRelax (s.dist src) d es src = 0 := by
    have := minRelax_le d src es (s.dist src)
    omega
  constructor
  · rw [hd, hmin]
  · rw [hpv, hmin, h0, if_neg (lt_irrefl 0), hp]

theorem dijkstraStep_keeps_source (g : Graph) (src dest : Nat)
    (s : SearchState) (x : Nat) (xs : List Nat)
    (h0 : s.dist src = 0) (hp : s.prev src = none) :
    (dijkstraStep g dest s x xs).state.dist src = 0 ∧
    (dijkstraStep g dest s x xs).state.prev src = none := by
  unfold dijkstraStep
  by_cases h1 : s.dist (selectMin s.dist x xs) = UINT_MAX
  · simp only [if_pos h1, StepRes.state]
    exact ⟨h0, hp⟩
  · simp only [if_neg h1]
    by_cases h2 : selectMin s.dist x xs = dest <;>
      · simp only [h2, ite_true, ite_false, StepRes.state]
        exact relaxEdges_keeps_source src _ _ _ _ h0 hp

theorem dijkstraLoop_keeps_source (g : Graph) (src dest : Nat) :
    ∀ (fuel : Nat) (s : SearchState),
      s.dist src = 0 → s.prev src = none →
      (dijkstraLoop g dest fuel s).dist src = 0 ∧
      (dijkstraLoop g dest fuel s).prev src = none := by
  intro fuel
  induction fuel with
  | zero => intro s h0 hp; exact ⟨h0, hp⟩
  | succ fuel ih =>
      intro s h0 hp
      cases hheap : s.heap with
      | nil =>
          rw [dijkstraLoop_nil g dest fuel s hheap]
          exact ⟨h0, hp⟩
      | cons x xs =>
          rw [dijkstraLoop_cons g dest fuel s x xs hheap]
          have hstate := dijkstraStep_keeps_source g src dest s x xs h0 hp
          cases hstep : dijkstraStep g dest s x xs with
          | done s' =>
              rw [hstep] at hstate
              exact hstate
          | next s' =>
              rw [hstep] at hstate
              exact ih s' hstate.1 hstate.2

theorem dijkstra_source_state (g : Graph) (src dest : Nat) (s : SearchState)
    (h : dijkstra g src dest = some s) :
    s.dist src = 0 ∧ s.prev src = none := by
  unfold dijkstra at h
  cases hf : graph_get_node g src with
  | none => rw [hf] at h; cases h
  | some nd =>
      rw [hf] at h
      have hs := Option.some.inj h
      subst hs
      apply dijkstraLoop_keeps_source
      · rw [hdd_dist, if_pos rfl]
      · rw [hdd_prev, if_pos rfl]

/-- C3 amended: the renderer walks `previous` links from the target and its
terminal condition is "previous is none" — the walk steps past any node
with a live predecessor, whatever its id, and stops exactly at a node whose
predecessor is none; the comparison with `source_id` only decides whether
a walk happens at all (the `source_id == id(dest)` guard).  After a search
from `source_id` the source's predecessor is none (and its distance `0`),
so a walk that reaches the source stops there. -/
theorem printLoop_terminal_condition (distf : Nat → Nat)
    (prevf : Nat → Option Nat) :
    (∀ (fuel cur : Nat), prevf cur = none →
       printLoop distf prevf fuel cur = []) ∧
    (∀ (fuel cur p : Nat), prevf cur = some p →
       printLoop distf prevf (fuel + 1) cur =
         edgeLine p cur (usub (distf cur) (distf p)) ::
           printLoop distf prevf fuel p) ∧
    (∀ (g : Graph) (src dest : Nat) (s : SearchState),
       dijkstra g src dest = some s →
       s.prev src = none ∧ s.dist src = 0) := by
  refine ⟨?_, ?_, ?_⟩
  · intro fuel cur h
    cases fuel with
    | zero => rfl
    | succ fuel =>
        show (match prevf cur with
              | none => []
              | some p => edgeLine p cur (usub (distf cur) (distf p)) ::
                  printLoop distf prevf fuel p) = []
        rw [h]
  · intro fuel cur p h
    show (match prevf cur with
          | none => []
          | some p => edgeLine p cur (usub (distf cur) (distf p)) ::
              printLoop distf prevf fuel p) = _
    rw [h]
  · intro g src dest s h
    obtain ⟨h0, hp⟩ := dijkstra_source_state g src dest s h
    exact ⟨hp, h0⟩

/-- Witness for C3's amended statement: the empty-predecessor walk stops at
once; one live link is followed; after the search on the two-node graph the
source's predecessor is none. -/
theorem printLoop_terminal_condition_witness :
    printLoop (fun _ => 0) (fun _ => none) 4 9 = [] ∧
    printLoop (fun _ => 0) (fun n => if n = 3 then some 2 else none) 1 3 =
      edgeLine 2 3 0 :: printLoop (fun _ => 0)
        (fun n => if n = 3 then some 2 else none) 0 2 ∧
    dijkstraPrev cGraphNoPath 1 2 1 = none := by
  refine ⟨(printLoop_terminal_condition _ _).1 4 9 rfl,
    (printLoop_terminal_condition _ _).2.1 0 3 2 rfl, ?_⟩
  have hs : (dijkstra cGraphNoPath 1 2).isSome = true := rfl
  cases h : dijkstra cGraphNoPath 1 2 with
  | none => rw [h] at hs; cases hs
  | some s =>
      have := ((printLoop_terminal_condition (fun _ => 0) (fun _ => none)).2.2
        cGraphNoPath 1 2 s h).1
      unfold dijkstraPrev
      rw [h]
      exact this

/-! ### C8 and C10: `atoi` on malformed fields -/

theorem stripSign_cases (cs : List Char) :
    (∃ rest, cs = '-' :: rest ∧ stripSign cs = rest) ∨
    (∃ rest, cs = '+' :: rest ∧ stripSign cs = rest) ∨
    stripSign cs = cs := by
  unfold stripSign
  split
  · exact Or.inl ⟨_, rfl, rfl⟩
  · exact Or.inr (Or.inl ⟨_, rfl, rfl⟩)
  · exact Or.inr (Or.inr rfl)

theorem atoi_eq_zero_of_nonNumeric (str : String)
    (h : nonNumericB str = true) : atoi str = 0 := by
  unfold nonNumericB at h
  have h' : List.takeWhile Char.isDigit
      (stripSign (List.dropWhile isSpaceC str.data)) = [] := by
    rwa [List.isEmpty_iff] at h
  unfold atoi
  split
  · next rest heq =>
      rw [heq] at h'
      have h'' : List.takeWhile Char.isDigit rest = [] := h'
      rw [h'']
      rfl
  · next rest heq =>
      rw [heq] at h'
      have h'' : List.takeWhile Char.isDigit rest = [] := h'
      rw [h'']
      rfl
  · next hne1 hne2 =>
      rcases stripSign_cases (List.dropWhile isSpaceC str.data) with
        ⟨rest, hcs, _⟩ | ⟨rest, hcs, _⟩ | hid
      · exact absurd hcs (hne1 rest)
      · exact absurd hcs (hne2 rest)
      · rw [hid] at h'
        rw [h']
        rfl

theorem atoiU_eq_zero_of_nonNumeric (str : String)
    (h : nonNumericB str = true) : atoiU str = 0 := by
  unfold atoiU
  rw [atoi_eq_zero_of_nonNumeric str h]
  rfl

/-- C8: a present but non-numeric numeric field of a node line or an edge
line is parsed as zero and the loader carries on with that zero (node id,
endpoint id or weight), instead of rejecting the line. -/
theorem loader_malformed_field_zero :
    (∀ (g : Graph) (line : String) (rest : List String) (t : String)
       (ts : List String),
       strtokAll line = t :: ts → nonNumericB t = true →
       loadNodes g (line :: rest) = loadNodes (graph_insert_node g 0) rest) ∧
    (∀ (g : Graph) (line : String) (rest : List String) (t1 t2 t3 t4 : String)
       (ts : List String),
       strtokAll line = t1 :: t2 :: t3 :: t4 :: ts →
       (loadEdges g (line :: rest) =
          loadEdges (graph_insert_edge g (atoiU t1) (atoiU t2) (atoi t4)) rest ∧
        (nonNumericB t1 = true → atoiU t1 = 0) ∧
        (nonNumericB t2 = true → atoiU t2 = 0) ∧
        (nonNumericB t4 = true → atoi t4 = 0))) := by
  constructor
  · intro g line rest t ts htok hnn
    have e : loadNodes g (line :: rest) =
        (match strtokAll line with
         | [] => none
         | t :: _ => loadNodes (graph_insert_node g (atoiU t)) rest) := rfl
    rw [e, htok]
    show loadNodes (graph_insert_node g (atoiU t)) rest = _
    rw [atoiU_eq_zero_of_nonNumeric t hnn]
  · intro g line rest t1 t2 t3 t4 ts htok
    refine ⟨?_, fun h => atoiU_eq_zero_of_nonNumeric t1 h,
      fun h => atoiU_eq_zero_of_nonNumeric t2 h,
      fun h => atoi_eq_zero_of_nonNumeric t4 h⟩
    have e : loadEdges g (line :: rest) =
        (match strtokAll line with
         | t1 :: t2 :: _t3 :: t4 :: _ =>
             loadEdges (graph_insert_edge g (atoiU t1) (atoiU t2) (atoi t4)) rest
         | _ => none) := rfl
    rw [e, htok]

/-- Witness for C8: the node line `"xx,5"` silently becomes node `0`; the
edge line `"1,2,q,zz"` silently becomes the edge `(1, 2, w=0)`. -/
theorem loader_malformed_field_zero_witness :
    loadNodes ([] : Graph) ["xx,5"] =
      loadNodes (graph_insert_node ([] : Graph) 0) [] ∧
    loadEdges ([] : Graph) ["1,2,q,zz"] =
      loadEdges (graph_insert_edge ([] : Graph) (atoiU "1") (atoiU "2")
        (atoi "zz")) [] ∧
    atoi "zz" = 0 := by
  refine ⟨?_, ?_, ?_⟩
  · exact loader_malformed_field_zero.1 ([] : Graph) "xx,5" [] "xx" ["5"]
      (by decide) (by decide)
  · exact (loader_malformed_field_zero.2 ([] : Graph) "1,2,q,zz" []
      "1" "2" "q" "zz" [] (by decide)).1
  · exact (loader_malformed_field_zero.2 ([] : Graph) "1,2,q,zz" []
      "1" "2" "q" "zz" [] (by decide)).2.2.2 (by decide)

theorem graph_get_node_id (g : Graph) (v : Nat) (nd : NodeData)
    (h : graph_get_node g v = some nd) : nd.id = v := by
  unfold graph_get_node at h
  have hp := List.find?_some h
  exact eq_of_beq hp

theorem dijkstra_isSome (g : Graph) (src dest : Nat) (nd : NodeData)
    (h : graph_get_node g src = some nd) :
    ∃ s, dijkstra g src dest = some s := by
  unfold dijkstra
  rw [h]
  exact ⟨_, rfl⟩

/-- When both the destination and the source lookups succeed, the reported
error is never the invalid-source or invalid-destination one. -/
theorem appRun_error_not_invalid (g : Graph) (a d : String) (dn : NodeData)
    (hdest : graph_get_node g (atoiU d) = some dn)
    (sn : NodeData) (hsrc : graph_get_node g (atoiU a) = some sn) :
    (appRun g a d).error ≠ some .invalidSourceNodeId ∧
    (appRun g a d).error ≠ some .invalidDestNodeId := by
  obtain ⟨s, hdij⟩ := dijkstra_isSome g (atoiU a) dn.id sn hsrc
  unfold appRun
  simp only [hdest, hdij]
  by_cases hinf : s.dist dn.id = UINT_MAX
  · rw [if_pos hinf]
    exact ⟨(fun h => nomatch h), (fun h => nomatch h)⟩
  · rw [if_neg hinf]
    exact ⟨(fun h => nomatch h), (fun h => nomatch h)⟩

/-- C10: each id argument is parsed with `atoi`, so a non-numeric source
argument makes the program behave exactly as if source id `0` had been
given — whatever the destination argument is — and likewise a non-numeric
destination argument behaves exactly as destination id `0` for any source
argument; the invalid-source error is then only reported when node `0` is
absent from the loaded graph, and the invalid-destination error exactly
when node `0` is absent. -/
theorem app_nonNumeric_args_as_zero (g : Graph) (a d : String) :
    (nonNumericB a = true →
       appRun g a d = appRun g "0" d ∧
       ((appRun g a d).error = some .invalidSourceNodeId →
          graph_get_node g 0 = none)) ∧
    (nonNumericB d = true →
       appRun g a d = appRun g a "0" ∧
       ((appRun g a d).error = some .invalidDestNodeId ↔
          graph_get_node g 0 = none)) := by
  have h0 : atoiU "0" = 0 := rfl
  constructor
  · intro ha
    have hA := atoiU_eq_zero_of_nonNumeric a ha
    constructor
    · unfold appRun
      rw [hA, h0]
    · intro herr
      cases hg0 : graph_get_node g 0 with
      | none => rfl
      | some sn =>
          exfalso
          cases hgd : graph_get_node g (atoiU d) with
          | none =>
              have hdd : (appRun g a d).error = some .invalidDestNodeId := by
                unfold appRun
                rw [hgd]
              rw [hdd] at herr
              exact absurd (Option.some.inj herr) (by decide)
          | some dn =>
              have hsrc : graph_get_node g (atoiU a) = some sn := by
                rw [hA]
                exact hg0
              exact absurd herr
                (appRun_error_not_invalid g a d dn hgd sn hsrc).1
  · intro hd
    have hD := atoiU_eq_zero_of_nonNumeric d hd
    constructor
    · unfold appRun
      rw [hD, h0]
    · cases hg0 : graph_get_node g 0 with
      | none =>
          have hdd : (appRun g a d).error = some .invalidDestNodeId := by
            unfold appRun
            rw [hD, hg0]
          exact ⟨fun _ => rfl, fun _ => hdd⟩
      | some nd =>
          have hdest : graph_get_node g (atoiU d) = some nd := by
            rw [hD]
            exact hg0
          constructor
          · intro herr
            exfalso
            cases hga : graph_get_node g (atoiU a) with
            | none =>
                have hdij : dijkstra g (atoiU a) nd.id = none := by
                  unfold dijkstra
                  rw [hga]
                have hW : (appRun g a d).error = some .invalidSourceNodeId := by
                  unfold appRun
                  simp only [hdest, hdij]
                rw [hW] at herr
                exact absurd (Option.some.inj herr) (by decide)
            | some sn =>
                exact absurd herr
                  (appRun_error_not_invalid g a d nd hdest sn hga).2
          · intro habs
            exact Option.noConfusion habs

/-- Witness for C10: on the two-node graph `{1, 2}` (no node `0`), the
non-numeric source `"abc"` behaves exactly like `"0"` with the destination
argument left as `"zz"`, the non-numeric destination `"zz"` behaves exactly
like `"0"` with the source left as `"abc"`, and the invalid-destination
error is reported because node `0` is absent. -/
theorem app_nonNumeric_args_as_zero_witness :
    appRun cGraphNoPath "abc" "zz" = appRun cGraphNoPath "0" "zz" ∧
    appRun cGraphNoPath "abc" "zz" = appRun cGraphNoPath "abc" "0" ∧
    ((appRun cGraphNoPath "abc" "zz").error = some .invalidDestNodeId ↔
       graph_get_node cGraphNoPath 0 = none) := by
  have h := app_nonNumeric_args_as_zero cGraphNoPath "abc" "zz"
  exact ⟨(h.1 (by decide)).1, (h.2 (by decide)).1, (h.2 (by decide)).2⟩

/-! ### C6: unreachable destination keeps the sentinel and reports no-path -/

theorem relaxEdges_reachInv (g : Graph) (src u d : Nat)
    (hu : Reaches g src u) :
    ∀ (es : List Edge) (s : SearchState), (∀ e ∈ es, e ∈ edgesOf g u) →
      ReachInv g src s → ReachInv g src (relaxEdges u d s es) := by
  intro es
  induction es with
  | nil => intro s _ hinv; exact hinv
  | cons e es ih =>
      intro s hsub hinv
      refine ih _ (fun e' he' => hsub e' (List.mem_cons_of_mem _ he')) ?_
      intro n hn
      by_cases hlt : relaxCandidate d e.mindelay < s.dist e.destination
      · rw [if_pos hlt] at hn
        by_cases hne : n = e.destination
        · subst hne
          obtain ⟨c, hc⟩ := hu
          exact ⟨c + e.mindelay, hc.tail (hsub e (List.mem_cons_self e es))⟩
        · rw [hdd_dist, if_neg hne] at hn
          exact hinv n hn
      · rw [if_neg hlt] at hn
        exact hinv n hn

theorem dijkstraStep_reachInv (g : Graph) (src dest : Nat) (s : SearchState)
    (x : Nat) (xs : List Nat) (hinv : ReachInv g src s) :
    ReachInv g src (dijkstraStep g dest s x xs).state := by
  unfold dijkstraStep
  by_cases h1 : s.dist (selectMin s.dist x xs) = UINT_MAX
  · simp only [if_pos h1, StepRes.state]
    exact hinv
  · simp only [if_neg h1]
    have hu : Reaches g src (selectMin s.dist x xs) := hinv _ h1
    by_cases h2 : selectMin s.dist x xs = dest
    · simp only [h2, ite_true, ite_false, StepRes.state]
      exact relaxEdges_reachInv g src _ _ (h2 ▸ hu) (edgesOf g _) _
        (fun e he => he) hinv
    · simp only [h2, ite_true, ite_false, StepRes.state]
      exact relaxEdges_reachInv g src _ _ hu (edgesOf g _) _
        (fun e he => he) hinv

theorem dijkstraLoop_reachInv (g : Graph) (src dest : Nat) :
    ∀ (fuel : Nat) (s : SearchState), ReachInv g src s →
      ReachInv g src (dijkstraLoop g dest fuel s) := by
  intro fuel
  induction fuel with
  | zero => intro s hinv; exact hinv
  | succ fuel ih =>
      intro s hinv
      cases hheap : s.heap with
      | nil =>
          rw [dijkstraLoop_nil g dest fuel s hheap]
          exact hinv
      | cons x xs =>
          rw [dijkstraLoop_cons g dest fuel s x xs hheap]
          have hstate := dijkstraStep_reachInv g src dest s x xs hinv
          cases hstep : dijkstraStep g dest s x xs with
          | done s' =>
              rw [hstep] at hstate
              exact hstate
          | next s' =>
              rw [hstep] at hstate
              exact ih s' hstate

theorem dijkstra_reachInv (g : Graph) (src dest : Nat) (s : SearchState)
    (h : dijkstra g src dest = some s) : ReachInv g src s := by
  unfold dijkstra at h
  cases hf : graph_get_node g src with
  | none => rw [hf] at h; cases h
  | some nd =>
      rw [hf] at h
      have hs := Option.some.inj h
      subst hs
      apply dijkstraLoop_reachInv
      intro n hn
      by_cases hns : n = src
      · subst hns
        exact ⟨0, CostReach.refl⟩
      · exfalso
        apply hn
        show (heap_decrease_distance _ src 0 none).dist n = UINT_MAX
        rw [hdd_dist, if_neg hns]

/-- C6: when no edge path connects source and destination (both present in
the graph), the search leaves the destination's distance at the `UINT_MAX`
sentinel and the program reports the no-path error with exit code `1`,
producing no output. -/
theorem no_path_reports_noPath (g : Graph) (a d : String)
    (destNd : NodeData) (hdest : graph_get_node g (atoiU d) = some destNd)
    (srcNd : NodeData) (hsrc : graph_get_node g (atoiU a) = some srcNd)
    (hnr : ¬ Reaches g (atoiU a) destNd.id) :
    dijkstraDist g (atoiU a) destNd.id destNd.id = UINT_MAX ∧
    appRun g a d = ⟨1, some .noPath, none⟩ := by
  obtain ⟨s, hdij⟩ := dijkstra_isSome g (atoiU a) destNd.id srcNd hsrc
  have hinv := dijkstra_reachInv g (atoiU a) destNd.id s hdij
  have hdist : s.dist destNd.id = UINT_MAX := by
    by_contra hne
    exact hnr (hinv _ hne)
  constructor
  · unfold dijkstraDist
    rw [hdij]
    exact hdist
  · unfold appRun
    simp only [hdest, hdij]
    rw [if_pos hdist]

theorem edgesOf_cGraphNoPath (n : Nat) : edgesOf cGraphNoPath n = [] := by
  unfold edgesOf
  cases hf : graph_get_node cGraphNoPath n with
  | none => rfl
  | some nd =>
      have hg : cGraphNoPath = [⟨1, []⟩, ⟨2, []⟩] := rfl
      rw [hg] at hf
      unfold graph_get_node at hf
      have hmem : nd ∈ ([⟨1, []⟩, ⟨2, []⟩] : List NodeData) :=
        List.mem_of_find?_eq_some hf
      rcases List.mem_cons.mp hmem with h | h2
      · rw [h]
      · rcases List.mem_cons.mp h2 with h | h
        · rw [h]
        · cases h

theorem costReach_cGraphNoPath (src : Nat) (n : Nat) (c : Int)
    (hc : CostReach cGraphNoPath src n c) : n = src ∧ c = 0 := by
  induction hc with
  | refl => exact ⟨rfl, rfl⟩
  | tail hc' he ih =>
      rw [edgesOf_cGraphNoPath] at he
      cases he

/-- Witness for C6: on the edgeless two-node graph, searching `1 → 2`
leaves node `2` at the sentinel and the run reports no-path, exit `1`,
no output. -/
theorem no_path_reports_noPath_witness :
    dijkstraDist cGraphNoPath (atoiU "1") 2 2 = UINT_MAX ∧
    appRun cGraphNoPath "1" "2" = ⟨1, some .noPath, none⟩ := by
  have hnr : ¬ Reaches cGraphNoPath (atoiU "1")
      (NodeData.id ⟨2, []⟩) := by
    intro hr
    obtain ⟨c, hc⟩ := hr
    have h12 := (costReach_cGraphNoPath (atoiU "1") _ c hc).1
    exact absurd h12 (by decide)
  exact no_path_reports_noPath cGraphNoPath "1" "2" ⟨2, []⟩ rfl ⟨1, []⟩ rfl hnr

/-! ### C5: early exit and optimality under non-negative, wrap-free weights -/

theorem minRelax_cases (d v : Nat) :
    ∀ (es : List Edge) (d0 : Nat),
      minRelax d0 d es v = d0 ∨
      ∃ e ∈ es, e.destination = v ∧
        minRelax d0 d es v = relaxCandidate d e.mindelay := by
  intro es
  induction es with
  | nil => intro d0; left; rfl
  | cons e es ih =>
      intro d0
      rw [minRelax_cons]
      by_cases hd : e.destination = v
      · rw [if_pos hd]
        rcases ih (min d0 (relaxCandidate d e.mindelay)) with h | ⟨e', he', hdv, hmr⟩
        · rcases min_cases d0 (relaxCandidate d e.mindelay) with ⟨hmin, _⟩ | ⟨hmin, _⟩
          · left; rw [h, hmin]
          · right
            exact ⟨e, List.mem_cons_self e es, hd, by rw [h, hmin]⟩
        · right
          exact ⟨e', List.mem_cons_of_mem e he', hdv, hmr⟩
      · rw [if_neg hd]
        rcases ih d0 with h | ⟨e', he', hdv, hmr⟩
        · left; exact h
        · right
          exact ⟨e', List.mem_cons_of_mem e he', hdv, hmr⟩

theorem minRelax_le_cand (d v : Nat) :
    ∀ (es : List Edge) (d0 : Nat) (e : Edge), e ∈ es → e.destination = v →
      minRelax d0 d es v ≤ relaxCandidate d e.mindelay := by
  intro es
  induction es with
  | nil => intro d0 e he; cases he
  | cons e' es ih =>
      intro d0 e he hdv
      rw [minRelax_cons]
      rcases List.mem_cons.mp he with h | h
      · subst h
        rw [if_pos hdv]
        exact le_trans (minRelax_le d v es _) (min_le_right _ _)
      · by_cases hd' : e'.destination = v
        · rw [if_pos hd']
          exact ih _ e h hdv
        · rw [if_neg hd']
          exact ih _ e h hdv

theorem edgesOf_mem_graph (g : Graph) (a : Nat) (e : Edge)
    (he : e ∈ edgesOf g a) :
    ∃ nd, nd ∈ g ∧ nd.id = a ∧ e ∈ nd.edges := by
  unfold edgesOf at he
  cases hf : graph_get_node g a with
  | none => rw [hf] at he; cases he
  | some nd =>
      rw [hf] at he
      refine ⟨nd, ?_, graph_get_node_id g a nd hf, he⟩
      unfold graph_get_node at hf
      exact List.mem_of_find?_eq_some hf

theorem mem_ids_of_get (g : Graph) (a : Nat) (nd : NodeData)
    (hf : graph_get_node g a = some nd) : a ∈ ids g := by
  have hid := graph_get_node_id g a nd hf
  unfold graph_get_node at hf
  have hmem := List.mem_of_find?_eq_some hf
  unfold ids
  exact hid ▸ List.mem_map_of_mem _ hmem

theorem mem_ids_of_edge (g : Graph) (a : Nat) (e : Edge)
    (he : e ∈ edgesOf g a) : a ∈ ids g := by
  unfold edgesOf at he
  cases hf : graph_get_node g a with
  | none => rw [hf] at he; cases he
  | some nd => exact mem_ids_of_get g a nd hf

theorem weight_nonneg_of (g : Graph)
    (W : ∀ nd ∈ g, ∀ e ∈ nd.edges, 0 ≤ e.mindelay)
    (a : Nat) (e : Edge) (he : e ∈ edgesOf g a) : 0 ≤ e.mindelay := by
  obtain ⟨nd, hnd, _, hee⟩ := edgesOf_mem_graph g a e he
  exact W nd hnd e hee

theorem dest_mem_ids_of (g : Graph)
    (C : ∀ nd ∈ g, ∀ e ∈ nd.edges, e.destination ∈ ids g)
    (a : Nat) (e : Edge) (he : e ∈ edgesOf g a) : e.destination ∈ ids g := by
  obtain ⟨nd, hnd, _, hee⟩ := edgesOf_mem_graph g a e he
  exact C nd hnd e hee

/-- Any path cost is bounded below by the node's current distance or by a
distance still in the heap: the crossing argument of Dijkstra's
correctness. -/
theorem dijkInv_lower_bound (g : Graph) (src : Nat)
    (W : ∀ nd ∈ g, ∀ e ∈ nd.edges, 0 ≤ e.mindelay)
    (s : SearchState) (inv : DijkInv g src s) :
    ∀ (n : Nat) (c : Int), CostReach g src n c →
      ((s.dist n : Int) ≤ c ∨ ∃ y ∈ s.heap, (s.dist y : Int) ≤ c) := by
  intro n c hc
  induction hc with
  | refl =>
      left
      rw [inv.hsrc0]
      simp
  | @tail a cc e hc' he ih =>
      have hw := weight_nonneg_of g W _ _ he
      rcases ih with hda | ⟨y, hy, hcy⟩
      · by_cases hmem : a ∈ s.heap
        · right
          exact ⟨a, hmem, by omega⟩
        · have haid := mem_ids_of_edge g _ _ he
          have hrel := inv.hrelaxed _ haid hmem _ he
          left
          omega
      · right
        exact ⟨y, hy, by omega⟩

/-- At extraction time, the minimum of the heap is a lower bound on every
path cost to it. -/
theorem dijkInv_extract_min_le (g : Graph) (src : Nat)
    (W : ∀ nd ∈ g, ∀ e ∈ nd.edges, 0 ≤ e.mindelay)
    (s : SearchState) (inv : DijkInv g src s) (x : Nat) (xs : List Nat)
    (hheap : s.heap = x :: xs) :
    ∀ c, CostReach g src (selectMin s.dist x xs) c →
      (s.dist (selectMin s.dist x xs) : Int) ≤ c := by
  intro c hc
  rcases dijkInv_lower_bound g src W s inv _ c hc with h | ⟨y, hy, hcy⟩
  · exact h
  · have hle : s.dist (selectMin s.dist x xs) ≤ s.dist y :=
      selectMin_le s.dist xs x y (by rw [← hheap]; exact hy)
    omega

theorem stepRes_state_ite (c : Prop) [Decidable c] (s2 : SearchState) :
    (if c then StepRes.done s2 else StepRes.next s2).state = s2 := by
  split <;> rfl

/-- One loop iteration preserves the Dijkstra invariant, under non-negative
weights (`W`), wrap-free path costs (`B`) and a closed graph (`C`). -/
theorem dijkstraStep_dijkInv (g : Graph) (src dest : Nat)
    (W : ∀ nd ∈ g, ∀ e ∈ nd.edges, 0 ≤ e.mindelay)
    (B : ∀ (n : Nat) (c : Int), CostReach g src n c → c < (UINT_MAX : Int))
    (s : SearchState) (x : Nat) (xs : List Nat) (hheap : s.heap = x :: xs)
    (inv : DijkInv g src s) :
    DijkInv g src (dijkstraStep g dest s x xs).state := by
  obtain ⟨node, hnode⟩ : ∃ nd, selectMin s.dist x xs = nd := ⟨_, rfl⟩
  have hmem : node ∈ s.heap := by
    rw [hheap, ← hnode]
    exact selectMin_mem s.dist xs x
  have hminle : ∀ v ∈ s.heap, s.dist node ≤ s.dist v := by
    intro v hv
    rw [← hnode]
    refine selectMin_le s.dist xs x v ?_
    rw [← hheap]
    exact hv
  have hsub1 : ∀ n ∈ (x :: xs).erase node, n ∈ ids g := by
    intro n hn
    refine inv.hsub n ?_
    rw [hheap]
    exact List.mem_of_mem_erase hn
  have hndheap : (x :: xs).Nodup := by
    have h := inv.hnd
    rw [hheap] at h
    exact h
  have hnd1 : ((x :: xs).erase node).Nodup := hndheap.erase node
  have heraseq : ∀ u, u ∈ s.heap → u ∉ (x :: xs).erase node → u = node := by
    intro u hu hne
    by_contra hun
    exact hne ((List.mem_erase_of_ne hun).mpr (by rw [← hheap]; exact hu))
  unfold dijkstraStep
  rw [hnode]
  by_cases h1 : s.dist node = UINT_MAX
  · simp only [if_pos h1, StepRes.state]
    refine ⟨hsub1, hnd1, inv.hdb, inv.hach, inv.hsrc0, ?_, ?_⟩
    · -- extracted minimum keeps the order invariant
      intro u huid hu v hv
      simp only [searchState_mk_dist, searchState_mk_heap] at hu hv ⊢
      have hvS : v ∈ s.heap := by
        rw [hheap]
        exact List.mem_of_mem_erase hv
      by_cases hus : u ∈ s.heap
      · rw [heraseq u hus hu]
        exact hminle v hvS
      · exact inv.hmono u huid hus v hvS
    · -- the infinite node's edges are vacuously relaxed
      intro u huid hu e he
      simp only [searchState_mk_dist, searchState_mk_heap] at hu ⊢
      by_cases hus : u ∈ s.heap
      · have hw := weight_nonneg_of g W u e he
        rw [heraseq u hus hu, h1]
        have hdbe := inv.hdb e.destination
        omega
      · exact inv.hrelaxed u huid hus e he
  · simp only [if_neg h1]
    rw [stepRes_state_ite]
    have hreach : CostReach g src node ((s.dist node : Int)) := inv.hach node h1
    have hd2 : ∀ v, (relaxEdges node (s.dist node)
        { s with heap := (x :: xs).erase node } (edgesOf g node)).dist v =
        minRelax (s.dist v) (s.dist node) (edgesOf g node) v :=
      fun v => (relaxEdges_dist_prev node (s.dist node) v (edgesOf g node)
        { s with heap := (x :: xs).erase node }).1
    have hp2 : (relaxEdges node (s.dist node)
        { s with heap := (x :: xs).erase node } (edgesOf g node)).heap =
        (x :: xs).erase node :=
      relaxEdges_heap node (s.dist node) (edgesOf g node) _
    have hcand : ∀ e ∈ edgesOf g node,
        ((relaxCandidate (s.dist node) e.mindelay : Nat) : Int) =
          (s.dist node : Int) + e.mindelay ∧ 0 ≤ e.mindelay := by
      intro e he
      have hw := weight_nonneg_of g W node e he
      have hcost : CostReach g src e.destination
          ((s.dist node : Int) + e.mindelay) := hreach.tail he
      have hb := B _ _ hcost
      exact ⟨relaxCandidate_exact (s.dist node) e.mindelay hw hb, hw⟩
    have hcandge : ∀ e ∈ edgesOf g node,
        s.dist node ≤ relaxCandidate (s.dist node) e.mindelay := by
      intro e he
      have h := (hcand e he).1
      have hw := (hcand e he).2
      have : (s.dist node : Int) ≤
          ((relaxCandidate (s.dist node) e.mindelay : Nat) : Int) := by omega
      exact_mod_cast this
    have hmonotone : ∀ v, minRelax (s.dist v) (s.dist node) (edgesOf g node) v ≤
        s.dist v := fun v => minRelax_le _ _ _ _
    have hfinal_unchanged : ∀ u, s.dist u ≤ s.dist node →
        minRelax (s.dist u) (s.dist node) (edgesOf g node) u = s.dist u := by
      intro u hle
      rcases minRelax_cases (s.dist node) u (edgesOf g node) (s.dist u) with
        h | ⟨e, he, hdv, hmr⟩
      · exact h
      · have h1' := minRelax_le (s.dist node) u (edgesOf g node) (s.dist u)
        have hcge := hcandge e he
        omega
    refine ⟨?_, ?_, ?_, ?_, ?_, ?_, ?_⟩
    · rw [hp2]; exact hsub1
    · rw [hp2]; exact hnd1
    · intro n
      rw [hd2]
      exact le_trans (hmonotone n) (inv.hdb n)
    · intro v hv
      rw [hd2] at hv ⊢
      rcases minRelax_cases (s.dist node) v (edgesOf g node) (s.dist v) with
        h | ⟨e, he, hdv, hmr⟩
      · rw [h] at hv ⊢
        exact inv.hach v hv
      · rw [hmr, (hcand e he).1]
        exact hdv ▸ hreach.tail he
    · rw [hd2, inv.hsrc0]
      have h0 := hmonotone src
      rw [inv.hsrc0] at h0
      omega
    · intro u huid hu v hv
      rw [hp2] at hu hv
      have hvS : v ∈ s.heap := by
        rw [hheap]
        exact List.mem_of_mem_erase hv
      have huOld : s.dist u ≤ s.dist node := by
        by_cases hus : u ∈ s.heap
        · rw [heraseq u hus hu]
        · exact inv.hmono u huid hus node hmem
      rw [hd2, hd2, hfinal_unchanged u huOld]
      rcases minRelax_cases (s.dist node) v (edgesOf g node) (s.dist v) with
        h | ⟨e, he, hdv, hmr⟩
      · rw [h]
        by_cases hus : u ∈ s.heap
        · rw [heraseq u hus hu]
          exact hminle v hvS
        · exact inv.hmono u huid hus v hvS
      · rw [hmr]
        exact le_trans huOld (hcandge e he)
    · intro u huid hu e he
      rw [hp2] at hu
      have huOld : s.dist u ≤ s.dist node := by
        by_cases hus : u ∈ s.heap
        · rw [heraseq u hus hu]
        · exact inv.hmono u huid hus node hmem
      rw [hd2, hd2, hfinal_unchanged u huOld]
      by_cases hus : u ∈ s.heap
      · -- u is the freshly extracted node: its edges were just relaxed
        have hueq : u = node := heraseq u hus hu
        subst hueq
        have hle := minRelax_le_cand (s.dist u) e.destination (edgesOf g u)
          (s.dist e.destination) e he rfl
        have hle' : ((minRelax (s.dist e.destination) (s.dist u)
            (edgesOf g u) e.destination : Nat) : Int) ≤
            ((relaxCandidate (s.dist u) e.mindelay : Nat) : Int) := by
          exact_mod_cast hle
        rw [(hcand e he).1] at hle'
        exact hle'
      · -- u was finalized before: relaxation only lowered the destination
        have hold := inv.hrelaxed u huid hus e he
        have hm := hmonotone e.destination
        have hm' : ((minRelax (s.dist e.destination) (s.dist node)
            (edgesOf g node) e.destination : Nat) : Int) ≤
            ((s.dist e.destination : Nat) : Int) := by exact_mod_cast hm
        omega

/-- The whole loop preserves the invariant, and in the final state the
destination has either left the heap (it was extracted, finalizing its
distance) or its distance is still the sentinel. -/
theorem dijkstraLoop_dijkInv (g : Graph) (src dest : Nat)
    (W : ∀ nd ∈ g, ∀ e ∈ nd.edges, 0 ≤ e.mindelay)
    (B : ∀ (n : Nat) (c : Int), CostReach g src n c → c < (UINT_MAX : Int)) :
    ∀ (fuel : Nat) (s : SearchState), s.heap.length ≤ fuel → DijkInv g src s →
      DijkInv g src (dijkstraLoop g dest fuel s) ∧
      (dest ∉ (dijkstraLoop g dest fuel s).heap ∨
        ((dijkstraLoop g dest fuel s).dist dest = UINT_MAX ∧
         ∀ v ∈ (dijkstraLoop g dest fuel s).heap,
           (dijkstraLoop g dest fuel s).dist v = UINT_MAX)) := by
  intro fuel
  induction fuel with
  | zero =>
      intro s hlen hinv
      have hnil : s.heap = [] := List.eq_nil_of_length_eq_zero (by omega)
      rw [dijkstraLoop_zero]
      refine ⟨hinv, Or.inl ?_⟩
      rw [hnil]
      exact List.not_mem_nil dest
  | succ fuel ih =>
      intro s hlen hinv
      cases hheap : s.heap with
      | nil =>
          rw [dijkstraLoop_nil g dest fuel s hheap]
          refine ⟨hinv, Or.inl ?_⟩
          rw [hheap]
          exact List.not_mem_nil dest
      | cons x xs =>
          rw [dijkstraLoop_cons g dest fuel s x xs hheap]
          have hstepinv := dijkstraStep_dijkInv g src dest W B s x xs hheap hinv
          have hndheap : (x :: xs).Nodup := by
            have h := hinv.hnd
            rw [hheap] at h
            exact h
          cases hstep : dijkstraStep g dest s x xs with
          | done s' =>
              have hinv' : DijkInv g src s' := by
                rw [hstep] at hstepinv
                exact hstepinv
              refine ⟨hinv', ?_⟩
              unfold dijkstraStep at hstep
              by_cases h1 : s.dist (selectMin s.dist x xs) = UINT_MAX
              · rw [if_pos h1] at hstep
                injection hstep with hs1
                by_cases hdm : dest ∈ s'.heap
                · right
                  rw [← hs1] at hdm ⊢
                  simp only [searchState_mk_dist, searchState_mk_heap] at hdm ⊢
                  constructor
                  · have hdS : dest ∈ x :: xs := List.mem_of_mem_erase hdm
                    have hle := selectMin_le s.dist xs x dest hdS
                    have hdb := hinv.hdb dest
                    omega
                  · intro v hv
                    have hvS : v ∈ x :: xs := List.mem_of_mem_erase hv
                    have hle := selectMin_le s.dist xs x v hvS
                    have hdb := hinv.hdb v
                    omega
                · left
                  exact hdm
              · rw [if_neg h1] at hstep
                by_cases h2 : selectMin s.dist x xs = dest
                · rw [if_pos h2] at hstep
                  injection hstep with hs2
                  left
                  rw [← hs2, relaxEdges_heap, searchState_mk_heap]
                  intro habs
                  rw [h2] at habs
                  exact ((hndheap.mem_erase_iff).mp habs).1 rfl
                · rw [if_neg h2] at hstep
                  cases hstep
          | next s' =>
              have hinv' : DijkInv g src s' := by
                rw [hstep] at hstepinv
                exact hstepinv
              have hlen' : s'.heap.length ≤ fuel := by
                have h := dijkstraStep_heap_length g dest s x xs
                rw [hstep] at h
                have h2 : s'.heap.length = xs.length := h
                have hleneq : s.heap.length = xs.length + 1 := by
                  rw [hheap]
                  rfl
                omega
              exact ih s' hlen' hinv'

/-- After a successful `dijkstra` run under non-negative, wrap-free weights
on a duplicate-free graph, the invariant holds of the returned state and the
destination was either extracted or left at the sentinel together with the
whole remaining heap. -/
theorem dijkstra_dijkInv_final (g : Graph) (src dest : Nat)
    (W : ∀ nd ∈ g, ∀ e ∈ nd.edges, 0 ≤ e.mindelay)
    (B : ∀ (n : Nat) (c : Int), CostReach g src n c → c < (UINT_MAX : Int))
    (HN : (ids g).Nodup) (s : SearchState)
    (hdij : dijkstra g src dest = some s) :
    DijkInv g src s ∧
    (dest ∉ s.heap ∨
      (s.dist dest = UINT_MAX ∧ ∀ v ∈ s.heap, s.dist v = UINT_MAX)) := by
  unfold dijkstra at hdij
  cases hf : graph_get_node g src with
  | none => rw [hf] at hdij; cases hdij
  | some nd =>
      rw [hf] at hdij
      have hs := Option.some.inj hdij
      subst hs
      have hbase : DijkInv g src (heap_decrease_distance
          ⟨fun _ => UINT_MAX, fun _ => none, ids g⟩ src 0 none) := by
        refine ⟨fun n hn => hn, HN, ?_, ?_, ?_, ?_, ?_⟩
        · intro n
          rw [hdd_dist]
          by_cases h : n = src
          · rw [if_pos h]
            exact Nat.zero_le _
          · rw [if_neg h]
        · intro n hn
          rw [hdd_dist] at hn ⊢
          by_cases h : n = src
          · subst h
            rw [if_pos rfl]
            have h0 : (((0 : Nat) : Int)) = 0 := rfl
            exact h0 ▸ CostReach.refl
          · rw [if_neg h] at hn
            exact absurd rfl hn
        · rw [hdd_dist, if_pos rfl]
        · intro u hu hnotin
          exact absurd hu hnotin
        · intro u hu hnotin
          exact absurd hu hnotin
      exact dijkstraLoop_dijkInv g src dest W B _ _ (Nat.le_refl _) hbase

/-- C5, amended: (i) when the extracted node is the designated target (and
its distance is not the sentinel) the loop returns right after relaxing the
target's outgoing edges — the search does terminate early; (ii) under
non-negative edge weights, provided no path cost reaches the `2^32 − 1`
sentinel (so the unsigned additions never wrap) and the graph is closed and
duplicate-free, the target's distance in the returned state — the state at
the moment of that extraction — is exactly the least path cost from the
source. -/
theorem dijkstra_early_exit_optimal (g : Graph) (src dest : Nat) :
    (∀ (s : SearchState) (x : Nat) (xs : List Nat) (fuel : Nat),
       s.heap = x :: xs → selectMin s.dist x xs = dest →
       s.dist dest ≠ UINT_MAX →
       dijkstraLoop g dest (fuel + 1) s =
         relaxEdges dest (s.dist dest)
           { s with heap := (x :: xs).erase dest } (edgesOf g dest)) ∧
    ((∀ nd ∈ g, ∀ e ∈ nd.edges, 0 ≤ e.mindelay) →
     (∀ (n : Nat) (c : Int), CostReach g src n c → c < (UINT_MAX : Int)) →
     (∀ nd ∈ g, ∀ e ∈ nd.edges, e.destination ∈ ids g) →
     (ids g).Nodup →
     ∀ (s : SearchState), dijkstra g src dest = some s →
       Reaches g src dest →
       IsLeast {c : Int | CostReach g src dest c} ((s.dist dest : Int))) := by
  constructor
  · intro s x xs fuel hheap hsel hfin
    rw [dijkstraLoop_cons g dest fuel s x xs hheap]
    have estep : dijkstraStep g dest s x xs =
        .done (relaxEdges dest (s.dist dest)
          { s with heap := (x :: xs).erase dest } (edgesOf g dest)) := by
      unfold dijkstraStep
      rw [hsel]
      rw [if_neg hfin, if_pos rfl]
    rw [estep]
  · intro W B C HN s hdij hreach
    obtain ⟨inv, hend⟩ := dijkstra_dijkInv_final g src dest W B HN s hdij
    have hsrc_mem : src ∈ ids g := by
      unfold dijkstra at hdij
      cases hf : graph_get_node g src with
      | none => rw [hf] at hdij; cases hdij
      | some nd => exact mem_ids_of_get g src nd hf
    obtain ⟨c0, hc0⟩ := hreach
    have hdest_mem : dest ∈ ids g := by
      cases hc0 with
      | refl => exact hsrc_mem
      | tail hc' he => exact dest_mem_ids_of g C _ _ he
    have hb0 := B dest c0 hc0
    have hfin : s.dist dest ≠ UINT_MAX := by
      rcases dijkInv_lower_bound g src W s inv dest c0 hc0 with h | ⟨y, hy, hcy⟩
      · intro habs
        rw [habs] at h
        omega
      · cases hend with
        | inl hnotin =>
            have hm := inv.hmono dest hdest_mem hnotin y hy
            intro habs
            rw [habs] at hm
            have hdb := inv.hdb y
            have : s.dist y = UINT_MAX := by omega
            rw [this] at hcy
            omega
        | inr hinf =>
            have := hinf.2 y hy
            rw [this] at hcy
            intro _
            omega
    have hnotin : dest ∉ s.heap := by
      cases hend with
      | inl h => exact h
      | inr h => exact absurd h.1 hfin
    refine ⟨inv.hach dest hfin, ?_⟩
    intro c hc
    rcases dijkInv_lower_bound g src W s inv dest c hc with h | ⟨y, hy, hcy⟩
    · exact h
    · have hm := inv.hmono dest hdest_mem hnotin y hy
      omega

theorem edgesOf_cGraphOver (a : Nat) :
    edgesOf cGraphOver a =
      if a = 1 then [⟨2, 2147483647⟩]
      else if a = 2 then [⟨3, 2147483647⟩]
      else if a = 3 then [⟨4, 4⟩]
      else [] := by
  by_cases h1 : a = 1
  · subst h1; rfl
  · rw [if_neg h1]
    by_cases h2 : a = 2
    · subst h2; rfl
    · rw [if_neg h2]
      by_cases h3 : a = 3
      · subst h3; rfl
      · rw [if_neg h3]
        by_cases h4 : a = 4
        · subst h4; rfl
        · unfold edgesOf
          have hnone : graph_get_node cGraphOver a = none := by
            unfold graph_get_node
            have e : cGraphOver = [⟨1, [⟨2, 2147483647⟩]⟩,
                ⟨2, [⟨3, 2147483647⟩]⟩, ⟨3, [⟨4, 4⟩]⟩, ⟨4, []⟩] := rfl
            rw [e, List.find?_eq_none]
            intro nd hmem hbeq
            have hid : nd.id = a := eq_of_beq hbeq
            rcases List.mem_cons.mp hmem with h | hmem1
            · rw [h] at hid; exact h1 hid.symm
            · rcases List.mem_cons.mp hmem1 with h | hmem2
              · rw [h] at hid; exact h2 hid.symm
              · rcases List.mem_cons.mp hmem2 with h | hmem3
                · rw [h] at hid; exact h3 hid.symm
                · rcases List.mem_cons.mp hmem3 with h | hmem4
                  · rw [h] at hid; exact h4 hid.symm
                  · cases hmem4
          rw [hnone]

/-- The only walks in the overflow graph reach `1, 2, 3, 4` at the exact
integer costs `0`, `2^31 − 1`, `2^32 − 2` and `2^32 + 2`. -/
theorem costReach_cGraphOver (n : Nat) (c : Int)
    (hc : CostReach cGraphOver 1 n c) :
    (n = 1 ∧ c = 0) ∨ (n = 2 ∧ c = 2147483647) ∨
    (n = 3 ∧ c = 4294967294) ∨ (n = 4 ∧ c = 4294967298) := by
  induction hc with
  | refl => exact Or.inl ⟨rfl, rfl⟩
  | @tail a cc e hc' he ih =>
      rw [edgesOf_cGraphOver] at he
      rcases ih with ⟨ha, hcost⟩ | ⟨ha, hcost⟩ | ⟨ha, hcost⟩ | ⟨ha, hcost⟩
      · subst ha; subst hcost
        simp at he
        subst he
        right; left
        exact ⟨rfl, by norm_num⟩
      · subst ha; subst hcost
        simp at he
        subst he
        right; right; left
        exact ⟨rfl, by norm_num⟩
      · subst ha; subst hcost
        simp at he
        subst he
        right; right; right
        exact ⟨rfl, by norm_num⟩
      · subst ha; subst hcost
        simp at he

/-- Counterexample to C5 as stated: on `cGraphOver` every weight is
non-negative, yet at the moment the target `4` is extracted (the returned
state) its distance is `2`, which is not the cost of any path — the only
path `1 → 2 → 3 → 4` costs `2^32 + 2`, the unsigned additions wrapped — so
the reported distance is not the minimal shortest-path distance. -/
theorem dijkstra_overflow_counterexample :
    dijkstraDist cGraphOver 1 4 4 = 2 ∧
    CostReach cGraphOver 1 4 4294967298 ∧
    ¬ CostReach cGraphOver 1 4 ((dijkstraDist cGraphOver 1 4 4 : Nat) : Int) := by
  refine ⟨by decide, ?_, ?_⟩
  · have h1 : CostReach cGraphOver 1 1 0 := CostReach.refl
    have he1 : (⟨2, 2147483647⟩ : Edge) ∈ edgesOf cGraphOver 1 := by decide
    have h2 : CostReach cGraphOver 1 2 (0 + 2147483647) := h1.tail he1
    have he2 : (⟨3, 2147483647⟩ : Edge) ∈ edgesOf cGraphOver 2 := by decide
    have h3 : CostReach cGraphOver 1 3 (0 + 2147483647 + 2147483647) :=
      h2.tail he2
    have he3 : (⟨4, 4⟩ : Edge) ∈ edgesOf cGraphOver 3 := by decide
    have h4 : CostReach cGraphOver 1 4 (0 + 2147483647 + 2147483647 + 4) :=
      h3.tail he3
    have hsum : (0 : Int) + 2147483647 + 2147483647 + 4 = 4294967298 := by
      norm_num
    rwa [hsum] at h4
  · intro hc
    have hd : dijkstraDist cGraphOver 1 4 4 = 2 := by decide
    rw [hd] at hc
    rcases costReach_cGraphOver 4 _ hc with ⟨h, _⟩ | ⟨h, _⟩ | ⟨h, _⟩ | ⟨_, hcost⟩
    · exact absurd h (by decide)
    · exact absurd h (by decide)
    · exact absurd h (by decide)
    · norm_num at hcost

/-- Witness for C5's amended statement: on the edgeless two-node graph with
source = target = `1`, the loop returns at the target's extraction and the
reported distance `0` is the least path cost. -/
theorem dijkstra_early_exit_optimal_witness :
    dijkstraLoop cGraphNoPath 1 1 ⟨fun _ => 0, fun _ => none, [1]⟩ =
      relaxEdges 1 0
        { (⟨fun _ => 0, fun _ => none, [1]⟩ : SearchState) with
            heap := ([1] : List Nat).erase 1 } (edgesOf cGraphNoPath 1) ∧
    IsLeast {c : Int | CostReach cGraphNoPath 1 1 c}
      ((dijkstraDist cGraphNoPath 1 1 1 : Int)) := by
  constructor
  · exact (dijkstra_early_exit_optimal cGraphNoPath 1 1).1
      ⟨fun _ => 0, fun _ => none, [1]⟩ 1 [] 0 rfl rfl (by decide)
  · have hB : ∀ (n : Nat) (c : Int), CostReach cGraphNoPath 1 n c →
        c < (UINT_MAX : Int) := by
      intro n c hc
      have h := (costReach_cGraphNoPath 1 n c hc).2
      rw [h]
      decide
    have hs : (dijkstra cGraphNoPath 1 1).isSome = true := rfl
    cases h : dijkstra cGraphNoPath 1 1 with
    | none => rw [h] at hs; cases hs
    | some s =>
        have hres := (dijkstra_early_exit_optimal cGraphNoPath 1 1).2
          (by decide) hB (by decide) (by decide) s h ⟨0, CostReach.refl⟩
        unfold dijkstraDist
        rw [h]
        exact hres

end SPath
